import Mathlib

/-
Verification of the candidate-classification pipeline of architectures_2023
(src/architectures_2023/data.py) against its natural-language specification.

A pandas DataFrame is embedded as a `List Row` (a `Frame`): list positions are
the dense zero-based index that every producer in the pipeline guarantees via
reset_index.  Float columns that can hold NaN are `Option ℚ` with `none` for a
missing value; the two columns the pipeline writes (`position`,
`multiplicity`) are `Option`-valued so a frame where the column is absent is
representable.  Payload columns the pipeline preserves but never reads
(radius, impact parameter, ...) are elided.
-/

/-- Row of the Kepler candidate table, holding exactly the fields the
classification pipeline reads or writes. -/
structure Row where
  koi : String
  system : Int
  ttvperiod : Option ℚ
  snr : Option ℚ
  statusflag : String
  position : Option String := none
  multiplicity : Option Nat := none
deriving DecidableEq

abbrev Frame := List Row

/-- Enum STATUS_FLAG from data.py; each variant carries an anchored regex
over the status code: PERIOD_RELATED is the pattern caret-P-dot-star,
RADIUS_RELATED is caret-bracket-PR-bracket-dot-star, and
R_DISPOSITION_RELATED is caret-R-dot-star. -/
inductive STATUS_FLAG where
  | PERIOD_RELATED
  | RADIUS_RELATED
  | R_DISPOSITION_RELATED
deriving DecidableEq

/-- Series.str.match against the STATUS_FLAG pattern.  Each of the three
patterns is a prefix-anchored pattern that matches a string iff its first
character is P (PERIOD_RELATED), P or R (RADIUS_RELATED), or R
(R_DISPOSITION_RELATED); the trailing dot-star also matches the empty rest,
so only the first character matters. -/
def statusMatch : STATUS_FLAG → String → Bool
  | .PERIOD_RELATED, s => s.data.head? == some 'P'
  | .RADIUS_RELATED, s => s.data.head? == some 'P' || s.data.head? == some 'R'
  | .R_DISPOSITION_RELATED, s => s.data.head? == some 'R'

/-- Pandas comparison value >= bound used by the two threshold masks of
filter_data.  A missing value (NaN) compares false against every bound, and
comparing a float column against the scalar None produces an all-false mask
(pandas comparison_op special-cases a null right-hand scalar: every op except
ne yields False), so a `none` bound rejects every row. -/
def optGe (v bound : Option ℚ) : Bool :=
  match v, bound with
  | some x, some b => decide (b ≤ x)
  | _, _ => false

/-- Model of data.filter_data: optional status-pattern mask, then the
ttvperiod mask, then the snr mask; each boolean-mask indexing keeps the
surviving rows in order, and the final reset_index(drop=True) is the identity
on the positional list model.  The defaults mirror the Python signature
(min_ttvperiod=0, min_snr=12); `none` models passing Python None. -/
def filter_data (df : Frame) (status_flag : Option STATUS_FLAG := none)
    (min_ttvperiod : Option ℚ := some 0) (min_snr : Option ℚ := some 12) : Frame :=
  let df1 : Frame := match status_flag with
    | some sf => df.filter (fun r => statusMatch sf r.statusflag)
    | none => df
  let df2 := df1.filter (fun r => optGe r.ttvperiod min_ttvperiod)
  df2.filter (fun r => optGe r.snr min_snr)

/-- Number of rows of the frame whose system column equals s. -/
def countSystem (df : Frame) (s : Int) : Nat :=
  (df.filter (fun r => decide (r.system = s))).length

/-- Model of df.system.duplicated(keep=False): true on a row iff its system
value occurs at least twice in the frame. -/
def duplicatedKeepFalse (df : Frame) (r : Row) : Bool :=
  decide (2 ≤ countSystem df r.system)

/-- Model of data.get_multis_and_singles: multis is the sub-frame selected by
the duplicated(keep=False) mask, singles is the drop of those index labels,
i.e. the complementary sub-frame; both are reindexed densely, which the list
model renders as plain filtering that keeps relative order. -/
def get_multis_and_singles (df : Frame) : Frame × Frame :=
  let multis := df.filter (fun r => duplicatedKeepFalse df r)
  let singles := df.filter (fun r => ! duplicatedKeepFalse df r)
  (singles, multis)

/-- Row order on the system column used by sort_values(by=[system]). -/
def sysLe (a b : Row) : Prop := a.system ≤ b.system

instance : DecidableRel sysLe := fun a b =>
  inferInstanceAs (Decidable (a.system ≤ b.system))

instance : IsTotal Row sysLe := ⟨fun a b => Int.le_total a.system b.system⟩

instance : IsTrans Row sysLe := ⟨fun _ _ _ h1 h2 => le_trans h1 h2⟩

/-- Model of sort_values(by=[system]) followed by reset_index.  pandas uses an
unstable sort for a single key, so the relative order of rows with equal
system is implementation defined; the model fixes a stable sort and the
theorems below rely only on the result being a permutation of the input that
is sorted by system. -/
def sortBySystem (df : Frame) : Frame := df.insertionSort sysLe

/-- Model of data.demote_multis_to_singles: re-partition the multis frame,
stamp position demoted on the new singles, concatenate them onto the existing
singles, re-sort by system.  The final astype(category) on the position
column changes only the dtype, not any value, and is the identity in the
model. -/
def demote_multis_to_singles (singles multis : Frame) : Frame × Frame :=
  let p := get_multis_and_singles multis
  let new_singles := p.1.map (fun r => { r with position := some "demoted" })
  let singles2 := sortBySystem (singles ++ new_singles)
  (singles2, p.2)

/-- Column assignment df.multiplicity = df.groupby(system).koi.transform(count):
every row receives the number of rows of its system in df (the koi column is
never null, so the non-null count is the group size).  In pandas this
assignment mutates the frame object it is applied to in place. -/
def with_multiplicity (df : Frame) : Frame :=
  df.map (fun r => { r with multiplicity := some (countSystem df r.system) })

/-- Model of data._filter_then_split, also tracking the final state of the
caller frame object as the first component: the filterer output is a fresh
frame (boolean-mask indexing copies), so the in-place multiplicity column
write lands on that copy and the caller object is returned unchanged. -/
def _filter_then_split_state (df : Frame) (filterer : Frame → Frame) :
    Frame × (Frame × Frame) :=
  let filtered := filterer df
  let withMult := with_multiplicity filtered
  (df, get_multis_and_singles withMult)

/-- Model of data._split_then_filter, also tracking the final state of the
caller frame object as the first component: here the multiplicity column is
written into the argument frame itself before splitting, so the caller object
ends up with the column added (counts over the whole pre-filter dataset). -/
def _split_then_filter_state (df : Frame) (filterer : Frame → Frame) :
    Frame × (Frame × Frame) :=
  let df2 := with_multiplicity df
  let p := get_multis_and_singles df2
  (df2, (filterer p.1, filterer p.2))

/-- Value returned by data._filter_then_split. -/
def _filter_then_split (df : Frame) (filterer : Frame → Frame) : Frame × Frame :=
  (_filter_then_split_state df filterer).2

/-- Value returned by data._split_then_filter. -/
def _split_then_filter (df : Frame) (filterer : Frame → Frame) : Frame × Frame :=
  (_split_then_filter_state df filterer).2

/-- First pair attaining the minimal second component, scanning left to
right; on ties the earlier pair wins.  This is groupby idxmin on a list of
(row index, value) pairs. -/
def argminQ : List (Nat × ℚ) → Option (Nat × ℚ)
  | [] => none
  | p :: ps =>
    match argminQ ps with
    | none => some p
    | some q => if p.2 ≤ q.2 then some p else some q

/-- First pair attaining the maximal second component, scanning left to
right; on ties the earlier pair wins.  This is groupby idxmax on a list of
(row index, value) pairs. -/
def argmaxQ : List (Nat × ℚ) → Option (Nat × ℚ)
  | [] => none
  | p :: ps =>
    match argmaxQ ps with
    | none => some p
    | some q => if q.2 ≤ p.2 then some p else some q

/-- Pairs (row index, ttvperiod value) of the rows of system s, in row order,
indices starting at i; rows with a missing period are skipped, matching the
skipna semantics of groupby idxmin and idxmax. -/
def groupPairsFrom (s : Int) : Nat → Frame → List (Nat × ℚ)
  | _, [] => []
  | i, r :: rs =>
    let rest := groupPairsFrom s (i + 1) rs
    if r.system = s then
      match r.ttvperiod with
      | some v => (i, v) :: rest
      | none => rest
    else rest

/-- Pairs (row index, ttvperiod value) of the rows of system s in df. -/
def groupPairs (df : Frame) (s : Int) : List (Nat × ℚ) := groupPairsFrom s 0 df

/-- Position written by data._label_position into the row at index i.  The
source sets every position to middle, then overwrites the per-system idxmin
rows with innermost, then the per-system idxmax rows with outermost, then the
rows of a non-duplicated system with single; each group idx points at a row
of its own group, and later writes win, so the effective priority is single,
then outermost, then innermost, then middle.  This per-row function is only
consulted by _label_position on frames where every system has at least one
present ttvperiod (otherwise the source raises before any final label
exists, which _label_position models by returning none): under that guard a
missing-period row always shares its system with a present-period row, so
the single branch is reached only by present-period rows, and idxmin or
idxmax exists for every group exactly as in the source. -/
def positionAt (df : Frame) (i : Nat) (r : Row) : String :=
  if ! duplicatedKeepFalse df r then "single"
  else if (argmaxQ (groupPairs df r.system)).map Prod.fst = some i then "outermost"
  else if (argminQ (groupPairs df r.system)).map Prod.fst = some i then "innermost"
  else "middle"

/-- Rows of the suffix l of df labeled with their positions, the first row of
l sitting at index i of df. -/
def labelFrom (df : Frame) : Nat → Frame → Frame
  | _, [] => []
  | i, r :: rs => { r with position := some (positionAt df i r) } :: labelFrom df (i + 1) rs

/-- Model of data._label_position.  When some system of the frame has only
missing ttvperiod values, the source fails: groupby idxmin/idxmax produces a
null label for that all-missing group and the df.loc assignment raises
KeyError, so no labeled frame is ever returned — the model returns none
exactly in that case.  Otherwise every row is labeled with positionAt.  The
final astype(category) on the position column changes only the dtype, not
any value, and is the identity in the model. -/
def _label_position (df : Frame) : Option Frame :=
  if df.any (fun r => (groupPairs df r.system).isEmpty) then none
  else some (labelFrom df 0 df)

/-- Configuration options read by process_data: the two booleans of
data_processing and the two thresholds of data_filtering (a missing threshold
key falls back to the filter_data defaults, `none` models Python None). -/
structure Config where
  pre_split_filtering : Bool
  demote_multis_to_singles : Bool
  min_ttvperiod : Option ℚ := some 0
  min_snr : Option ℚ := some 12
deriving DecidableEq

/-- Output bundle of the pipeline, mirroring the frozen dataclass KeplerData. -/
structure KeplerData where
  singles : Frame
  multis : Frame
  config : Option Config := none
  status_flag : Option STATUS_FLAG := none
deriving DecidableEq

/-- Model of data.process_data.  The first component of the result is the
final state of the caller frame object (the argument df), which the
split-then-filter branch mutates in place by writing the multiplicity column
before any later stage can fail; the second component is the returned
KeplerData, or none when _label_position raises on one of the two halves
(the exception propagates, and the caller frame keeps the state the chosen
branch already gave it, since labeling and demotion work on fresh frames). -/
def process_data (df : Frame) (config : Config) (status_flag : STATUS_FLAG) :
    Frame × Option KeplerData :=
  let fn := fun d => filter_data d (some status_flag) config.min_ttvperiod config.min_snr
  let step :=
    if config.pre_split_filtering then _filter_then_split_state df fn
    else _split_then_filter_state df fn
  let out :=
    match _label_position step.2.1, _label_position step.2.2 with
    | some singles, some multis =>
      let final :=
        if config.demote_multis_to_singles then demote_multis_to_singles singles multis
        else (singles, multis)
      some { singles := final.1, multis := final.2,
             config := some config, status_flag := some status_flag }
    | _, _ => none
  (step.1, out)

/-- Numeric value of a decimal digit character. -/
def digitVal (c : Char) : Option Nat :=
  if c.isDigit then some (c.toNat - 48) else none

/-- Parse a string of decimal digits into a natural number; fails on any
non-digit character. -/
def parseDigitsAux : List Char → Nat → Option Nat
  | [], acc => some acc
  | c :: rest, acc =>
    match digitVal c with
    | some d => parseDigitsAux rest (10 * acc + d)
    | none => none

/-- Split a character list at the first dot, if any. -/
def splitDot : List Char → List Char × Option (List Char)
  | [] => ([], none)
  | c :: rest =>
    if c = '.' then ([], some rest)
    else
      let p := splitDot rest
      (c :: p.1, p.2)

/-- Parse a KOI designation as a nonnegative decimal numeral, over ℚ.  A
second dot or any other non-digit character fails.  Signs, exponents and
whitespace, which Python float parsing would accept but which never occur in
KOI designations, are not modeled; float32 rounding is not modeled either
(the parse is exact over ℚ). -/
def parseDecimal (s : String) : Option ℚ :=
  match splitDot s.data with
  | (ip, none) =>
    if ip = [] then none
    else (parseDigitsAux ip 0).map (fun n => mkRat n 1)
  | (ip, some fp) =>
    if ip = [] ∧ fp = [] then none
    else
      match parseDigitsAux ip 0, parseDigitsAux fp 0 with
      | some a, some b => some (mkRat (a * 10 ^ fp.length + b) (10 ^ fp.length))
      | _, _ => none

/-- Model of df.koi.astype(float32).astype(int32): parse the designation as a
decimal numeral and truncate the fractional part.  astype(int32) truncates
toward zero, which on the nonnegative values produced by the parser is the
floor. -/
def koiSystem (s : String) : Option Int := (parseDecimal s).map Rat.floor

/-- Column assignment df.system = df.koi.astype(float32).astype(int32),
propagating a parse failure (astype raises on a malformed designation, so no
row is silently dropped). -/
def assignSystems : Frame → Option Frame
  | [] => some []
  | r :: rs =>
    match koiSystem r.koi, assignSystems rs with
    | some s, some rest => some ({ r with system := s } :: rest)
    | _, _ => none

/-- Comparison of two ttvperiod cells inside the (system, ttvperiod) sort:
missing values sort last (na_position last), equal keys tie. -/
def perLe : Option ℚ → Option ℚ → Prop
  | _, none => True
  | none, some _ => False
  | some x, some y => x ≤ y

instance : DecidableRel perLe := fun a b =>
  match a, b with
  | some x, some y => inferInstanceAs (Decidable (x ≤ y))
  | some _, none => isTrue trivial
  | none, none => isTrue trivial
  | none, some _ => isFalse id

/-- Lexicographic row order on (system, ttvperiod) used by
sort_values(by=[system, ttvperiod]). -/
def sysPerLe (a b : Row) : Prop :=
  a.system < b.system ∨ (a.system = b.system ∧ perLe a.ttvperiod b.ttvperiod)

instance : DecidableRel sysPerLe := fun a b =>
  inferInstanceAs (Decidable (a.system < b.system ∨
    (a.system = b.system ∧ perLe a.ttvperiod b.ttvperiod)))

instance : IsTotal Row sysPerLe := by
  constructor
  intro a b
  rcases Int.lt_trichotomy a.system b.system with h | h | h
  · exact Or.inl (Or.inl h)
  · have hp : perLe a.ttvperiod b.ttvperiod ∨ perLe b.ttvperiod a.ttvperiod := by
      cases a.ttvperiod <;> cases b.ttvperiod <;> simp [perLe]
      exact le_total _ _
    rcases hp with hp | hp
    · exact Or.inl (Or.inr ⟨h, hp⟩)
    · exact Or.inr (Or.inr ⟨h.symm, hp⟩)
  · exact Or.inr (Or.inl h)

instance : IsTrans Row sysPerLe := by
  constructor
  intro a b c hab hbc
  rcases hab with h1 | ⟨h1, h1p⟩
  · rcases hbc with h2 | ⟨h2, _⟩
    · exact Or.inl (h1.trans h2)
    · exact Or.inl (h2 ▸ h1)
  · rcases hbc with h2 | ⟨h2, h2p⟩
    · exact Or.inl (h1 ▸ h2)
    · refine Or.inr ⟨h1.trans h2, ?_⟩
      revert h1p h2p
      cases a.ttvperiod <;> cases b.ttvperiod <;> cases c.ttvperiod <;>
        simp [perLe]
      exact fun h1p h2p => le_trans h1p h2p

/-- Model of sort_values(by=[system, ttvperiod]) followed by reset_index; a
multi-key pandas sort is the stable lexsort, which any stable sort by the
same lexicographic key reproduces exactly. -/
def sortBySystemPeriod (df : Frame) : Frame := df.insertionSort sysPerLe

/-- Model of data.clean_data restricted to the columns of the row model: the
system column is derived from the koi designation, then the frame is sorted
by (system, ttvperiod).  Column-name normalization, the fillna defaults of
the three payload columns and the payload dtype coercions touch only columns
the row model elides. -/
def clean_data (df : Frame) : Option Frame :=
  (assignSystems df).map sortBySystemPeriod

/-! Example rows used by witnesses and counterexamples. -/

/-- Single-planet system 1, period 10, snr 20. -/
def exA : Row :=
  { koi := "1.01", system := 1, ttvperiod := some 10, snr := some 20, statusflag := "PC" }

/-- System 2, period 5, snr 20. -/
def exB1 : Row :=
  { koi := "2.01", system := 2, ttvperiod := some 5, snr := some 20, statusflag := "PC" }

/-- System 2, period 15, snr 20. -/
def exB2 : Row :=
  { koi := "2.02", system := 2, ttvperiod := some 15, snr := some 20, statusflag := "PC" }

/-- System 2, period 25, snr 20. -/
def exB3 : Row :=
  { koi := "2.03", system := 2, ttvperiod := some 25, snr := some 20, statusflag := "PC" }

/-- Row with a negative period and a small snr. -/
def exNeg : Row :=
  { koi := "4.01", system := 4, ttvperiod := some (-5), snr := some 5, statusflag := "PC" }

/-- Row with a missing (NaN) period. -/
def exNaN : Row :=
  { koi := "5.01", system := 5, ttvperiod := none, snr := some 20, statusflag := "PC" }

/-- Row of system 5 with a present period, sharing its system with exNaN. -/
def exM5 : Row :=
  { koi := "5.02", system := 5, ttvperiod := some 10, snr := some 20, statusflag := "PC" }

/-- Labeled form of [exB1, exB2, exB3]: periods 5, 15, 25 in system 2. -/
def exB123Labeled : Frame :=
  [{ exB1 with position := some "innermost" },
   { exB2 with position := some "middle" },
   { exB3 with position := some "outermost" }]

/-- Row with a positive period but snr below the default threshold 12. -/
def exLowSnr : Row :=
  { koi := "6.01", system := 6, ttvperiod := some 10, snr := some 5, statusflag := "PC" }
/-- Row exB2 stamped with multiplicity 1. -/
def exB2m1 : Row := { exB2 with multiplicity := some 1 }
/-- Raw row with designation 3.02, default system 0, period 9. -/
def exRaw1 : Row :=
  { koi := "3.02", system := 0, ttvperiod := some 9, snr := some 1, statusflag := "PC" }

/-- Raw row with designation 3.01, default system 0, period 4. -/
def exRaw2 : Row :=
  { koi := "3.01", system := 0, ttvperiod := some 4, snr := some 1, statusflag := "PC" }

/-- Cleaned form of [exRaw1, exRaw2]: systems set to 3, rows re-sorted by
period within the system. -/
def exCleanOut : Frame :=
  [{ exRaw2 with system := 3 }, { exRaw1 with system := 3 }]
/-- Rows of a frame paired with their indices, starting at i. -/
def pairsFrom : Nat → Frame → List (Nat × Row)
  | _, [] => []
  | i, r :: rs => (i, r) :: pairsFrom (i + 1) rs
/-- Two rows of system 3 with equal periods. -/
def exT1 : Row :=
  { koi := "3.01", system := 3, ttvperiod := some 5, snr := some 20, statusflag := "PC" }

/-- Second row of system 3 with the same period as exT1. -/
def exT2 : Row :=
  { koi := "3.02", system := 3, ttvperiod := some 5, snr := some 20, statusflag := "PC" }

/-! General lemmas about the embedded operations. -/

theorem countSystem_nil (s : Int) : countSystem [] s = 0 := rfl

theorem countSystem_cons (r : Row) (l : Frame) (s : Int) :
    countSystem (r :: l) s =
      (if r.system = s then 1 else 0) + countSystem l s := by
  by_cases h : r.system = s
  · simp [countSystem, List.filter_cons, h]
    omega
  · simp [countSystem, List.filter_cons, h]

/-- Filtering with a predicate that holds on every row of a given system
leaves the count of that system unchanged. -/
theorem countSystem_filter_congr (df : Frame) (P : Row → Bool) (s : Int)
    (h : ∀ r ∈ df, r.system = s → P r = true) :
    countSystem (df.filter P) s = countSystem df s := by
  induction df with
  | nil => rfl
  | cons r rs ih =>
    have hrs : ∀ r2 ∈ rs, r2.system = s → P r2 = true := fun r2 hm => h r2 (by simp [hm])
    by_cases hsys : r.system = s
    · have hP : P r = true := h r (by simp) hsys
      simp [List.filter_cons, hP, countSystem_cons, hsys, ih hrs]
    · by_cases hP : P r = true
      · simp [List.filter_cons, hP, countSystem_cons, hsys, ih hrs]
      · simp only [Bool.not_eq_true] at hP
        simp [List.filter_cons, hP, countSystem_cons, hsys, ih hrs]

/-- Mapping a row transform that preserves the system column preserves the
per-system counts. -/
theorem countSystem_map (df : Frame) (f : Row → Row)
    (hf : ∀ r, (f r).system = r.system) (s : Int) :
    countSystem (df.map f) s = countSystem df s := by
  induction df with
  | nil => rfl
  | cons r rs ih => simp [countSystem_cons, hf, ih]

theorem countSystem_with_multiplicity (df : Frame) (s : Int) :
    countSystem (with_multiplicity df) s = countSystem df s := by
  unfold with_multiplicity
  exact countSystem_map df
    (fun r => { r with multiplicity := some (countSystem df r.system) })
    (fun _ => rfl) s

/-- Partition of a list length by a boolean predicate. -/
theorem length_filter_partition {α : Type} (l : List α) (p : α → Bool) :
    (l.filter p).length + (l.filter (fun a => ! p a)).length = l.length := by
  induction l with
  | nil => rfl
  | cons a l ih => by_cases h : p a <;> simp [List.filter_cons, h] <;> omega

/-- Rows surviving filter_data are rows of the input. -/
theorem mem_of_mem_filter_data {df : Frame} {sf : Option STATUS_FLAG}
    {mt ms : Option ℚ} {r : Row} (h : r ∈ filter_data df sf mt ms) : r ∈ df := by
  unfold filter_data at h
  cases sf <;> simp only [List.mem_filter] at h
  · exact h.1.1
  · exact h.1.1.1

/-- filter_data output rows pass both threshold masks. -/
theorem filter_data_masks {df : Frame} {sf : Option STATUS_FLAG}
    {mt ms : Option ℚ} {r : Row} (h : r ∈ filter_data df sf mt ms) :
    optGe r.ttvperiod mt = true ∧ optGe r.snr ms = true := by
  unfold filter_data at h
  cases sf <;> simp only [List.mem_filter] at h
  · exact ⟨h.1.2, h.2⟩
  · exact ⟨h.1.2, h.2⟩

/-- C1: get_multis_and_singles partitions its input by system multiplicity:
multis holds exactly the rows whose system occurs at least twice in the
input, singles holds exactly the rest; both halves preserve the relative row
order of the input (they are sublists, and the dense zero-based reindexing is
the positional list structure itself); no row is in both halves; the sizes
sum to the input size; and the empty input yields two empty outputs. -/
theorem C1_partition (df : Frame) :
    (∀ r, r ∈ (get_multis_and_singles df).2 ↔
        r ∈ df ∧ 2 ≤ countSystem df r.system) ∧
    (∀ r, r ∈ (get_multis_and_singles df).1 ↔
        r ∈ df ∧ countSystem df r.system < 2) ∧
    (get_multis_and_singles df).1.Sublist df ∧
    (get_multis_and_singles df).2.Sublist df ∧
    (get_multis_and_singles df).1.length + (get_multis_and_singles df).2.length
      = df.length ∧
    (∀ r, r ∈ (get_multis_and_singles df).2 → r ∉ (get_multis_and_singles df).1) ∧
    get_multis_and_singles ([] : Frame) = ([], []) := by
  refine ⟨?_, ?_, ?_, ?_, ?_, ?_, rfl⟩
  · intro r
    simp [get_multis_and_singles, List.mem_filter, duplicatedKeepFalse]
  · intro r
    simp [get_multis_and_singles, List.mem_filter, duplicatedKeepFalse, Nat.lt_iff_add_one_le]
  · exact List.filter_sublist df
  · exact List.filter_sublist df
  · have h := length_filter_partition df (fun r => duplicatedKeepFalse df r)
    simp only [get_multis_and_singles]
    omega
  · intro r hm hs
    simp [get_multis_and_singles, List.mem_filter] at hm hs
    exact absurd hm.2 (by simp [hs.2])

/-- Witness for C1 at a concrete input: in the frame [exB1, exB2] both rows
share system 2, so exB1 lands in multis and therefore not in singles. -/
theorem C1_partition_witness :
    exB1 ∉ (get_multis_and_singles [exB1, exB2]).1 :=
  (C1_partition [exB1, exB2]).2.2.2.2.2.1 exB1 (by decide)

/-- Rows surviving filter_data carry present (non-NaN) ttvperiod and snr
values, for every choice of the thresholds: a missing value satisfies no
>= comparison. -/
theorem isSome_of_mem_filter_data {df : Frame} {sf : Option STATUS_FLAG}
    {mt ms : Option ℚ} {r : Row} (h : r ∈ filter_data df sf mt ms) :
    r.ttvperiod.isSome = true ∧ r.snr.isSome = true := by
  obtain ⟨h1, h2⟩ := filter_data_masks h
  constructor
  · cases hp : r.ttvperiod with
    | none => rw [hp] at h1; cases mt <;> simp [optGe] at h1
    | some v => rfl
  · cases hp : r.snr with
    | none => rw [hp] at h2; cases ms <;> simp [optGe] at h2
    | some v => rfl

/-- Raising the bound of the pandas >= mask can only turn rows off. -/
theorem optGe_mono {v : Option ℚ} {lo hi : ℚ} (h : lo ≤ hi)
    (hv : optGe v (some hi) = true) : optGe v (some lo) = true := by
  cases v with
  | none => simp [optGe] at hv
  | some x =>
    simp only [optGe, decide_eq_true_eq] at hv ⊢
    exact le_trans h hv

/-- C6: filter_data is monotone in its two thresholds: raising min_ttvperiod
and min_snr shrinks the surviving set (sublist, hence subset, hence no larger
size), for every input frame and fixed status flag. -/
theorem C6_filter_data_monotone (df : Frame) (sf : Option STATUS_FLAG)
    (a a2 b b2 : ℚ) (ha : a ≤ a2) (hb : b ≤ b2) :
    (filter_data df sf (some a2) (some b2)).Sublist
      (filter_data df sf (some a) (some b)) ∧
    (∀ r ∈ filter_data df sf (some a2) (some b2),
      r ∈ filter_data df sf (some a) (some b)) ∧
    (filter_data df sf (some a2) (some b2)).length ≤
      (filter_data df sf (some a) (some b)).length := by
  have hsub : (filter_data df sf (some a2) (some b2)).Sublist
      (filter_data df sf (some a) (some b)) := by
    unfold filter_data
    cases sf with
    | none =>
      simp only [List.filter_filter]
      apply List.monotone_filter_right
      intro r hr
      simp only [Bool.and_eq_true] at hr ⊢
      exact ⟨optGe_mono hb hr.1, optGe_mono ha hr.2⟩
    | some fl =>
      simp only [List.filter_filter]
      apply List.monotone_filter_right
      intro r hr
      simp only [Bool.and_eq_true] at hr ⊢
      exact ⟨optGe_mono hb hr.1, optGe_mono ha hr.2.1, hr.2.2⟩
  exact ⟨hsub, fun r hr => hsub.subset hr, hsub.length_le⟩

/-- The pandas >= mask against the scalar None rejects every value. -/
theorem optGe_none_right (v : Option ℚ) : optGe v none = false := by
  cases v <;> rfl

/-- C5 counterexample: the claim fails at concrete inputs.  With both
thresholds None, filter_data on the one-row frame [exNeg] (negative period,
no status filter) returns the empty frame, not the status-filtered input
[exNeg]; and the unset min_snr is the default 12, not a permissive zero: the
row exLowSnr (snr 5) survives explicit zero thresholds but is dropped by the
unset defaults. -/
theorem C5_counterexample :
    filter_data [exNeg] none none none = [] ∧ ([exNeg] : Frame) ≠ [] ∧
    filter_data [exLowSnr] none (some 0) (some 0) = [exLowSnr] ∧
    filter_data [exLowSnr] none = [] := by decide

/-- C5 amended: an unset threshold equals the Python defaults (0 for
min_ttvperiod, 12 for min_snr) rather than a permissive zero for both; a
zero min_ttvperiod is not the identity filter, since it keeps exactly the
rows whose period is present and nonnegative; and None is not a no-bound
sentinel: a comparison against the scalar None is false on every row, so
whenever min_ttvperiod or min_snr is None filter_data returns the empty
frame regardless of the status-pattern match. -/
theorem C5_amended_thresholds (df : Frame) (sf : Option STATUS_FLAG) :
    (filter_data df sf = filter_data df sf (some 0) (some 12)) ∧
    (filter_data df sf none none = []) ∧
    (∀ mt, filter_data df sf mt none = []) ∧
    (∀ ms, filter_data df sf none ms = []) ∧
    (∀ b r, r ∈ filter_data df sf (some 0) b →
        ∃ p, r.ttvperiod = some p ∧ 0 ≤ p) := by
  refine ⟨rfl, ?_, ?_, ?_, ?_⟩
  · simp [filter_data, optGe_none_right]
  · intro mt; simp [filter_data, optGe_none_right]
  · intro ms; simp [filter_data, optGe_none_right]
  · intro b r hr
    have h := (filter_data_masks hr).1
    cases hp : r.ttvperiod with
    | none => rw [hp] at h; simp [optGe] at h
    | some p =>
      rw [hp] at h
      simp only [optGe, decide_eq_true_eq] at h
      exact ⟨p, rfl, h⟩

/-- Witness for C5 amended at a concrete input: exA survives a zero period
threshold and indeed has a present nonnegative period. -/
theorem C5_amended_thresholds_witness :
    ∃ p, exA.ttvperiod = some p ∧ 0 ≤ p :=
  (C5_amended_thresholds [exA] none).2.2.2.2 (some 0) exA (by decide)

/-- Unfolded form of _filter_then_split. -/
theorem _filter_then_split_eq (df : Frame) (fn : Frame → Frame) :
    _filter_then_split df fn = get_multis_and_singles (with_multiplicity (fn df)) := rfl

/-- Unfolded form of _split_then_filter. -/
theorem _split_then_filter_eq (df : Frame) (fn : Frame → Frame) :
    _split_then_filter df fn =
      (fn (get_multis_and_singles (with_multiplicity df)).1,
       fn (get_multis_and_singles (with_multiplicity df)).2) := rfl

/-- Both halves of get_multis_and_singles hold rows of the input frame. -/
theorem mem_of_mem_gms_singles {df : Frame} {r : Row}
    (h : r ∈ (get_multis_and_singles df).1) : r ∈ df :=
  (List.filter_sublist df).subset h

/-- Both halves of get_multis_and_singles hold rows of the input frame. -/
theorem mem_of_mem_gms_multis {df : Frame} {r : Row}
    (h : r ∈ (get_multis_and_singles df).2) : r ∈ df :=
  (List.filter_sublist df).subset h

/-- Every row of with_multiplicity df carries the count of its system in df. -/
theorem multiplicity_of_mem_with_multiplicity {df : Frame} {r : Row}
    (h : r ∈ with_multiplicity df) :
    r.multiplicity = some (countSystem df r.system) := by
  unfold with_multiplicity at h
  obtain ⟨r0, _, rfl⟩ := List.mem_map.mp h
  rfl

/-- C2: the two pipeline orderings are not equivalent.  At the concrete
two-row frame [exB1, exB2] with period threshold 8 they classify different
outputs; and in general every surviving row of filter-then-split carries
multiplicity equal to the post-filter count of its system, while every
surviving row of split-then-filter carries the count of its system in the
whole pre-filter dataset. -/
theorem C2_ordering_sensitivity :
    (_filter_then_split [exB1, exB2] (fun d => filter_data d none (some 8) (some 0)) ≠
      _split_then_filter [exB1, exB2] (fun d => filter_data d none (some 8) (some 0))) ∧
    (∀ df sf mt ms r,
        (r ∈ (_filter_then_split df (fun d => filter_data d sf mt ms)).1 ∨
         r ∈ (_filter_then_split df (fun d => filter_data d sf mt ms)).2) →
        r.multiplicity = some (countSystem (filter_data df sf mt ms) r.system)) ∧
    (∀ df sf mt ms r,
        (r ∈ (_split_then_filter df (fun d => filter_data d sf mt ms)).1 ∨
         r ∈ (_split_then_filter df (fun d => filter_data d sf mt ms)).2) →
        r.multiplicity = some (countSystem df r.system)) := by
  refine ⟨by decide, ?_, ?_⟩
  · intro df sf mt ms r h
    have hmem : r ∈ with_multiplicity (filter_data df sf mt ms) := by
      rw [_filter_then_split_eq] at h
      rcases h with h | h
      · exact mem_of_mem_gms_singles h
      · exact mem_of_mem_gms_multis h
    exact multiplicity_of_mem_with_multiplicity hmem
  · intro df sf mt ms r h
    have hmem : r ∈ with_multiplicity df := by
      rw [_split_then_filter_eq] at h
      rcases h with h | h
      · exact mem_of_mem_gms_singles (mem_of_mem_filter_data h)
      · exact mem_of_mem_gms_multis (mem_of_mem_filter_data h)
    exact multiplicity_of_mem_with_multiplicity hmem

/-- Witness for C2 at a concrete input: the surviving row of
filter-then-split on [exB1, exB2] with period threshold 8 carries the
post-filter count of system 2. -/
theorem C2_ordering_sensitivity_witness :
    exB2m1.multiplicity =
      some (countSystem (filter_data [exB1, exB2] none (some 8) (some 0)) exB2m1.system) :=
  C2_ordering_sensitivity.2.1 [exB1, exB2] none (some 8) (some 0) exB2m1
    (Or.inl (by decide))

/-- Unfolded form of demote_multis_to_singles. -/
theorem demote_multis_to_singles_eq (singles multis : Frame) :
    demote_multis_to_singles singles multis =
      (sortBySystem (singles ++
          (multis.filter (fun r => ! duplicatedKeepFalse multis r)).map
            (fun r => { r with position := some "demoted" })),
       multis.filter (fun r => duplicatedKeepFalse multis r)) := rfl

theorem sortBySystem_perm (l : Frame) : (sortBySystem l).Perm l :=
  List.perm_insertionSort sysLe l

theorem sortBySystem_sorted (l : Frame) : List.Sorted sysLe (sortBySystem l) :=
  List.sorted_insertionSort sysLe l

/-- C3: after demotion the returned multis contains no system with fewer
than 2 rows; every row whose system had exactly one surviving row in the
input multis appears in the returned singles stamped position demoted; and
the returned singles frame is sorted by system and holds exactly the input
singles plus the demoted rows (the categorical re-declaration of the
position domain is a dtype operation that leaves every value, including the
new demoted labels, in place). -/
theorem C3_demotion_resolves (singles multis : Frame) :
    (∀ r ∈ (demote_multis_to_singles singles multis).2,
        2 ≤ countSystem (demote_multis_to_singles singles multis).2 r.system) ∧
    (∀ r ∈ multis, countSystem multis r.system = 1 →
        { r with position := some "demoted" } ∈
          (demote_multis_to_singles singles multis).1) ∧
    List.Sorted sysLe (demote_multis_to_singles singles multis).1 ∧
    (demote_multis_to_singles singles multis).1.Perm
      (singles ++ (multis.filter (fun r => ! duplicatedKeepFalse multis r)).map
        (fun r => { r with position := some "demoted" })) := by
  rw [demote_multis_to_singles_eq]
  refine ⟨?_, ?_, sortBySystem_sorted _, sortBySystem_perm _⟩
  · intro r hr
    obtain ⟨hrm, hdup⟩ := List.mem_filter.mp hr
    simp only [duplicatedKeepFalse, decide_eq_true_eq] at hdup
    have hc : countSystem
        (multis.filter (fun r2 => duplicatedKeepFalse multis r2)) r.system =
        countSystem multis r.system := by
      apply countSystem_filter_congr
      intro r2 _ hsys
      simp only [duplicatedKeepFalse, decide_eq_true_eq, hsys]
      exact hdup
    rw [hc]
    exact hdup
  · intro r hrm hcount
    have hnd : duplicatedKeepFalse multis r = false := by
      simp [duplicatedKeepFalse, hcount]
    have h1 : r ∈ multis.filter (fun r2 => ! duplicatedKeepFalse multis r2) :=
      List.mem_filter.mpr ⟨hrm, by simp [hnd]⟩
    have h2 : { r with position := some "demoted" } ∈
        (multis.filter (fun r2 => ! duplicatedKeepFalse multis r2)).map
          (fun r2 => { r2 with position := some "demoted" }) :=
      List.mem_map.mpr ⟨r, h1, rfl⟩
    exact ((sortBySystem_perm _).mem_iff).mpr (List.mem_append.mpr (Or.inr h2))

/-- Witness for C3 at a concrete input: system 2 has exactly one row exB3 in
the input multis, and the demoted copy of exB3 lands in the output singles. -/
theorem C3_demotion_resolves_witness :
    { exB3 with position := some "demoted" } ∈
      (demote_multis_to_singles [exA] [exB3]).1 :=
  (C3_demotion_resolves [exA] [exB3]).2.1 exB3 (by decide) (by decide)

/-- C7: demotion is idempotent on an already-demoted result: when every
system of the multis argument has at least 2 rows, the returned multis is
exactly the input multis and the returned singles holds exactly the input
singles rows (same rows, hence same per-row position labels; the frame is
only re-sorted by system, and no new demoted row appears). -/
theorem C7_demotion_idempotent (singles multis : Frame)
    (h : ∀ r ∈ multis, 2 ≤ countSystem multis r.system) :
    (demote_multis_to_singles singles multis).2 = multis ∧
    (demote_multis_to_singles singles multis).1.Perm singles ∧
    (∀ r ∈ (demote_multis_to_singles singles multis).1, r ∈ singles) := by
  rw [demote_multis_to_singles_eq]
  have hall : multis.filter (fun r => duplicatedKeepFalse multis r) = multis :=
    List.filter_eq_self.mpr fun r hr => by
      simpa [duplicatedKeepFalse] using h r hr
  have hnone : multis.filter (fun r => ! duplicatedKeepFalse multis r) = [] :=
    List.filter_eq_nil_iff.mpr fun r hr => by
      simp [duplicatedKeepFalse, h r hr]
  have hperm : (sortBySystem (singles ++
      (multis.filter (fun r => ! duplicatedKeepFalse multis r)).map
        (fun r => { r with position := some "demoted" }))).Perm singles := by
    rw [hnone]
    simpa using sortBySystem_perm singles
  exact ⟨hall, hperm, fun r hr => hperm.mem_iff.mp hr⟩

/-- Witness for C7 at a concrete input: both rows of [exB1, exB2] share
system 2, so the multis half is returned unchanged. -/
theorem C7_demotion_idempotent_witness :
    (demote_multis_to_singles [exA] [exB1, exB2]).2 = [exB1, exB2] :=
  (C7_demotion_idempotent [exA] [exB1, exB2] (by decide)).1

/-- Final state of the caller frame after process_data. -/
theorem process_data_fst (df : Frame) (cfg : Config) (sf : STATUS_FLAG) :
    (process_data df cfg sf).1 =
      if cfg.pre_split_filtering then df else with_multiplicity df := by
  unfold process_data _filter_then_split_state _split_then_filter_state
  by_cases h : cfg.pre_split_filtering <;> simp [h]

/-- Dropping the multiplicity column of with_multiplicity df recovers the
multiplicity-less view of df: nothing but that one column is touched. -/
theorem with_multiplicity_erase (df : Frame) :
    (with_multiplicity df).map (fun r => { r with multiplicity := none }) =
      df.map (fun r => { r with multiplicity := none }) := by
  unfold with_multiplicity
  rw [List.map_map]
  rfl

/-- C8 counterexample: the claim that process_data leaves the caller frame
unchanged for every configuration fails at a concrete input: with
pre_split_filtering disabled, the split-then-filter branch writes the
multiplicity column into the caller frame in place. -/
theorem C8_counterexample :
    (process_data [exA]
        { pre_split_filtering := false, demote_multis_to_singles := false,
          min_ttvperiod := some 0, min_snr := some 0 }
        STATUS_FLAG.PERIOD_RELATED).1 ≠ [exA] := by decide

/-- C8 amended: process_data leaves the caller frame unchanged exactly when
pre_split_filtering is enabled; when it is disabled the only caller-visible
effect is the in-place multiplicity column write of _split_then_filter
(whole-dataset pre-filter counts), and in every case the rows, their order,
and every other column of the caller frame are untouched. -/
theorem C8_input_state (df : Frame) (cfg : Config) (sf : STATUS_FLAG) :
    (cfg.pre_split_filtering = true → (process_data df cfg sf).1 = df) ∧
    (cfg.pre_split_filtering = false →
        (process_data df cfg sf).1 = with_multiplicity df) ∧
    ((process_data df cfg sf).1.map (fun r => { r with multiplicity := none })
        = df.map (fun r => { r with multiplicity := none })) := by
  refine ⟨?_, ?_, ?_⟩
  · intro h; rw [process_data_fst, h, if_pos rfl]
  · intro h; rw [process_data_fst, h]; rfl
  · rw [process_data_fst]
    by_cases h : cfg.pre_split_filtering
    · rw [if_pos h]
    · rw [if_neg h]
      exact with_multiplicity_erase df

/-- Witness for C8 amended at a concrete input: with pre_split_filtering
enabled the caller frame [exA] comes back unchanged. -/
theorem C8_input_state_witness :
    (process_data [exA]
        { pre_split_filtering := true, demote_multis_to_singles := false,
          min_ttvperiod := some 0, min_snr := some 0 }
        STATUS_FLAG.PERIOD_RELATED).1 = [exA] :=
  (C8_input_state [exA]
    { pre_split_filtering := true, demote_multis_to_singles := false,
      min_ttvperiod := some 0, min_snr := some 0 }
    STATUS_FLAG.PERIOD_RELATED).1 rfl

theorem assignSystems_length : ∀ {df out : Frame},
    assignSystems df = some out → out.length = df.length := by
  intro df
  induction df with
  | nil =>
    intro out h
    simp only [assignSystems, Option.some.injEq] at h
    subst h
    rfl
  | cons r rs ih =>
    intro out h
    simp only [assignSystems] at h
    cases hk : koiSystem r.koi with
    | none => rw [hk] at h; simp at h
    | some s =>
      rw [hk] at h
      cases ha : assignSystems rs with
      | none => rw [ha] at h; simp at h
      | some rest =>
        rw [ha] at h
        simp only [Option.some.injEq] at h
        rw [h.symm]
        simp [ih ha]

theorem assignSystems_mem : ∀ {df out : Frame}, assignSystems df = some out →
    ∀ r ∈ out, koiSystem r.koi = some r.system := by
  intro df
  induction df with
  | nil =>
    intro out h
    simp only [assignSystems, Option.some.injEq] at h
    subst h
    simp
  | cons r rs ih =>
    intro out h r2 hr2
    simp only [assignSystems] at h
    cases hk : koiSystem r.koi with
    | none => rw [hk] at h; simp at h
    | some s =>
      rw [hk] at h
      cases ha : assignSystems rs with
      | none => rw [ha] at h; simp at h
      | some rest =>
        rw [ha] at h
        simp only [Option.some.injEq] at h
        rw [h.symm] at hr2
        rcases List.mem_cons.mp hr2 with he | ht
        · rw [he]; exact hk
        · exact ih ha r2 ht

theorem assignSystems_id_of : ∀ {l : Frame},
    (∀ r ∈ l, koiSystem r.koi = some r.system) → assignSystems l = some l := by
  intro l
  induction l with
  | nil => intro _; rfl
  | cons r rs ih =>
    intro h
    have hr : koiSystem r.koi = some r.system := h r (by simp)
    have hrs := ih fun r2 h2 => h r2 (by simp [h2])
    simp only [assignSystems, hr, hrs]

theorem sortBySystemPeriod_perm (l : Frame) : (sortBySystemPeriod l).Perm l :=
  List.perm_insertionSort sysPerLe l

theorem sortBySystemPeriod_sorted (l : Frame) :
    List.Sorted sysPerLe (sortBySystemPeriod l) :=
  List.sorted_insertionSort sysPerLe l

/-- C9: for every raw frame it accepts (every koi designation parses),
clean_data derives each row system value by parsing the koi designation as a
decimal float and truncating (not rounding) toward zero, a deterministic and
idempotent derivation (re-deriving the system column on the cleaned output
is the identity); no row is dropped or added; and the output is sorted
ascending by (system, ttvperiod) — the dense zero-based index being the
positional list structure itself.  The concrete conjunct koiSystem of 12.90
equaling 12 exhibits truncation rather than rounding. -/
theorem C9_clean_data (df out : Frame) (h : clean_data df = some out) :
    out.length = df.length ∧
    (∀ r ∈ out, koiSystem r.koi = some r.system) ∧
    assignSystems out = some out ∧
    List.Sorted sysPerLe out ∧
    (∃ mid, assignSystems df = some mid ∧ out.Perm mid) ∧
    koiSystem "12.90" = some 12 := by
  unfold clean_data at h
  cases ha : assignSystems df with
  | none => rw [ha] at h; simp at h
  | some mid =>
    rw [ha] at h
    simp only [Option.map_some', Option.some.injEq] at h
    have hperm : out.Perm mid := h ▸ sortBySystemPeriod_perm mid
    have hmem : ∀ r ∈ out, koiSystem r.koi = some r.system := by
      intro r hr
      exact assignSystems_mem ha r (hperm.mem_iff.mp hr)
    refine ⟨?_, hmem, assignSystems_id_of hmem, ?_, ⟨mid, rfl, hperm⟩, by decide⟩
    · rw [hperm.length_eq]
      exact assignSystems_length ha
    · rw [h.symm]
      exact sortBySystemPeriod_sorted mid

/-- Witness for C9 at a concrete input: cleaning [exRaw1, exRaw2] yields
exCleanOut, on which the system derivation is idempotent. -/
theorem C9_clean_data_witness : assignSystems exCleanOut = some exCleanOut :=
  (C9_clean_data [exRaw1, exRaw2] exCleanOut (by decide)).2.2.1

theorem labelFrom_eq_map (df : Frame) : ∀ (k : Nat) (l : Frame),
    labelFrom df k l = (pairsFrom k l).map
      (fun p => { p.2 with position := some (positionAt df p.1 p.2) }) := by
  intro k l
  induction l generalizing k with
  | nil => rfl
  | cons r rs ih => simp [labelFrom, pairsFrom, ih]

theorem mem_pairsFrom {p : Nat × Row} : ∀ {k : Nat} {l : Frame},
    p ∈ pairsFrom k l ↔ ∃ j, j < l.length ∧ p.1 = k + j ∧ l[j]? = some p.2 := by
  intro k l
  induction l generalizing k with
  | nil => simp [pairsFrom]
  | cons r rs ih =>
    constructor
    · intro h
      rcases List.mem_cons.mp h with he | ht
      · exact ⟨0, by simp, by rw [he]; simp, by rw [he]; simp⟩
      · obtain ⟨j, hj, hk, hg⟩ := ih.mp ht
        exact ⟨j + 1, by simpa using hj, by omega, by simpa using hg⟩
    · rintro ⟨j, hj, hk, hg⟩
      cases j with
      | zero =>
        simp only [List.getElem?_cons_zero, Option.some.injEq] at hg
        have : p = (k, r) := Prod.ext (by omega) hg.symm
        simp [this, pairsFrom]
      | succ j =>
        simp only [List.getElem?_cons_succ] at hg
        have : p ∈ pairsFrom (k + 1) rs :=
          ih.mpr ⟨j, by simpa using hj, by omega, hg⟩
        simp [pairsFrom, this]

/-- The index determines the row within pairsFrom. -/
theorem pairsFrom_functional {k : Nat} {l : Frame} {i : Nat} {a b : Row}
    (ha : (i, a) ∈ pairsFrom k l) (hb : (i, b) ∈ pairsFrom k l) : a = b := by
  obtain ⟨j1, hj1, hk1, hg1⟩ := mem_pairsFrom.mp ha
  obtain ⟨j2, hj2, hk2, hg2⟩ := mem_pairsFrom.mp hb
  have : j1 = j2 := by omega
  subst this
  rw [hg1] at hg2
  exact Option.some.inj hg2

/-- Every row of a list appears in its indexed pairing. -/
theorem mem_pairsFrom_of_mem {r : Row} : ∀ {k : Nat} {l : Frame}, r ∈ l →
    ∃ i, (i, r) ∈ pairsFrom k l := by
  intro k l
  induction l generalizing k with
  | nil => intro h; cases h
  | cons a rs ih =>
    intro h
    rcases List.mem_cons.mp h with he | ht
    · exact ⟨k, by simp [pairsFrom, he]⟩
    · obtain ⟨i, hi⟩ := ih (k := k + 1) ht
      exact ⟨i, by simp [pairsFrom, hi]⟩

/-- The pair of a member of pairsFrom is a row of the underlying list. -/
theorem snd_mem_of_mem_pairsFrom {p : Nat × Row} : ∀ {k : Nat} {l : Frame},
    p ∈ pairsFrom k l → p.2 ∈ l := by
  intro k l
  induction l generalizing k with
  | nil => intro h; cases h
  | cons a rs ih =>
    intro h
    rcases List.mem_cons.mp h with he | ht
    · simp [he]
    · exact List.mem_cons_of_mem a (ih ht)

/-- Labeling preserves the per-system row counts. -/
theorem countSystem_labelFrom (df : Frame) (s : Int) : ∀ (k : Nat) (l : Frame),
    countSystem (labelFrom df k l) s = countSystem l s := by
  intro k l
  induction l generalizing k with
  | nil => rfl
  | cons r rs ih => simp [labelFrom, countSystem_cons, ih]

/-- Exactly one pair of pairsFrom carries a given in-range index. -/
theorem pairsFrom_filter_idx_length (i0 : Nat) : ∀ (k : Nat) (l : Frame),
    ((pairsFrom k l).filter (fun p => decide (p.1 = i0))).length =
      if k ≤ i0 ∧ i0 < k + l.length then 1 else 0 := by
  intro k l
  induction l generalizing k with
  | nil =>
    simp only [pairsFrom, List.filter_nil, List.length_nil]
    rw [if_neg (by omega)]
  | cons r rs ih =>
    have htail := ih (k + 1)
    by_cases hk : k = i0
    · subst hk
      simp only [pairsFrom, List.filter_cons, List.length_cons]
      rw [if_pos (by simp), List.length_cons, htail]
      split_ifs <;> omega
    · simp only [pairsFrom, List.filter_cons, List.length_cons]
      rw [if_neg (by simp [hk]), htail]
      split_ifs <;> omega

theorem argminQ_eq_none_iff {l : List (Nat × ℚ)} : argminQ l = none ↔ l = [] := by
  cases l with
  | nil => simp [argminQ]
  | cons p ps =>
    simp only [argminQ]
    cases h : argminQ ps <;> simp
    split_ifs <;> simp

theorem argminQ_mem : ∀ {l : List (Nat × ℚ)} {q}, argminQ l = some q → q ∈ l := by
  intro l
  induction l with
  | nil => intro q h; simp [argminQ] at h
  | cons p ps ih =>
    intro q h
    simp only [argminQ] at h
    cases hps : argminQ ps with
    | none => rw [hps] at h; simp at h; simp [h.symm]
    | some q2 =>
      rw [hps] at h
      dsimp only at h
      by_cases hle : p.2 ≤ q2.2
      · rw [if_pos hle] at h
        simp at h
        simp [h.symm]
      · rw [if_neg hle] at h
        simp at h
        exact List.mem_cons_of_mem p (h ▸ ih hps)

theorem argminQ_le : ∀ {l : List (Nat × ℚ)} {q}, argminQ l = some q →
    ∀ p ∈ l, q.2 ≤ p.2 := by
  intro l
  induction l with
  | nil => intro q h; simp [argminQ] at h
  | cons p ps ih =>
    intro q h x hx
    simp only [argminQ] at h
    cases hps : argminQ ps with
    | none =>
      rw [hps] at h
      simp only [Option.some.injEq] at h
      have : ps = [] := argminQ_eq_none_iff.mp hps
      subst this
      rcases List.mem_cons.mp hx with he | ht
      · rw [he, h.symm]
      · cases ht
    | some q2 =>
      rw [hps] at h
      dsimp only at h
      by_cases hle : p.2 ≤ q2.2
      · rw [if_pos hle] at h
        simp only [Option.some.injEq] at h
        subst h
        rcases List.mem_cons.mp hx with he | ht
        · rw [he]
        · exact le_trans hle (ih hps x ht)
      · rw [if_neg hle] at h
        simp only [Option.some.injEq] at h
        subst h
        rcases List.mem_cons.mp hx with he | ht
        · rw [he]; exact le_of_not_le hle
        · exact ih hps x ht

theorem argminQ_first : ∀ {l : List (Nat × ℚ)} {q}, argminQ l = some q →
    ∃ l1 l2, l = l1 ++ q :: l2 ∧ ∀ p ∈ l1, q.2 < p.2 := by
  intro l
  induction l with
  | nil => intro q h; simp [argminQ] at h
  | cons p ps ih =>
    intro q h
    simp only [argminQ] at h
    cases hps : argminQ ps with
    | none =>
      rw [hps] at h
      simp only [Option.some.injEq] at h
      exact ⟨[], ps, by rw [h]; rfl, by simp⟩
    | some q2 =>
      rw [hps] at h
      dsimp only at h
      by_cases hle : p.2 ≤ q2.2
      · rw [if_pos hle] at h
        simp only [Option.some.injEq] at h
        exact ⟨[], ps, by rw [h]; rfl, by simp⟩
      · rw [if_neg hle] at h
        simp only [Option.some.injEq] at h
        subst h
        obtain ⟨l1, l2, heq, hmin⟩ := ih hps
        refine ⟨p :: l1, l2, by rw [heq]; rfl, ?_⟩
        intro x hx
        rcases List.mem_cons.mp hx with he | ht
        · rw [he]; exact lt_of_not_le hle
        · exact hmin x ht

theorem argmaxQ_eq_none_iff {l : List (Nat × ℚ)} : argmaxQ l = none ↔ l = [] := by
  cases l with
  | nil => simp [argmaxQ]
  | cons p ps =>
    simp only [argmaxQ]
    cases h : argmaxQ ps <;> simp
    split_ifs <;> simp

theorem argmaxQ_mem : ∀ {l : List (Nat × ℚ)} {q}, argmaxQ l = some q → q ∈ l := by
  intro l
  induction l with
  | nil => intro q h; simp [argmaxQ] at h
  | cons p ps ih =>
    intro q h
    simp only [argmaxQ] at h
    cases hps : argmaxQ ps with
    | none => rw [hps] at h; simp at h; simp [h.symm]
    | some q2 =>
      rw [hps] at h
      dsimp only at h
      by_cases hle : q2.2 ≤ p.2
      · rw [if_pos hle] at h
        simp at h
        simp [h.symm]
      · rw [if_neg hle] at h
        simp at h
        exact List.mem_cons_of_mem p (h ▸ ih hps)

theorem argmaxQ_ge : ∀ {l : List (Nat × ℚ)} {q}, argmaxQ l = some q →
    ∀ p ∈ l, p.2 ≤ q.2 := by
  intro l
  induction l with
  | nil => intro q h; simp [argmaxQ] at h
  | cons p ps ih =>
    intro q h x hx
    simp only [argmaxQ] at h
    cases hps : argmaxQ ps with
    | none =>
      rw [hps] at h
      simp only [Option.some.injEq] at h
      have : ps = [] := argmaxQ_eq_none_iff.mp hps
      subst this
      rcases List.mem_cons.mp hx with he | ht
      · rw [he, h.symm]
      · cases ht
    | some q2 =>
      rw [hps] at h
      dsimp only at h
      by_cases hle : q2.2 ≤ p.2
      · rw [if_pos hle] at h
        simp only [Option.some.injEq] at h
        subst h
        rcases List.mem_cons.mp hx with he | ht
        · rw [he]
        · exact le_trans (ih hps x ht) hle
      · rw [if_neg hle] at h
        simp only [Option.some.injEq] at h
        subst h
        rcases List.mem_cons.mp hx with he | ht
        · rw [he]; exact le_of_not_le hle
        · exact ih hps x ht

theorem argmaxQ_first : ∀ {l : List (Nat × ℚ)} {q}, argmaxQ l = some q →
    ∃ l1 l2, l = l1 ++ q :: l2 ∧ ∀ p ∈ l1, p.2 < q.2 := by
  intro l
  induction l with
  | nil => intro q h; simp [argmaxQ] at h
  | cons p ps ih =>
    intro q h
    simp only [argmaxQ] at h
    cases hps : argmaxQ ps with
    | none =>
      rw [hps] at h
      simp only [Option.some.injEq] at h
      exact ⟨[], ps, by rw [h]; rfl, by simp⟩
    | some q2 =>
      rw [hps] at h
      dsimp only at h
      by_cases hle : q2.2 ≤ p.2
      · rw [if_pos hle] at h
        simp only [Option.some.injEq] at h
        exact ⟨[], ps, by rw [h]; rfl, by simp⟩
      · rw [if_neg hle] at h
        simp only [Option.some.injEq] at h
        subst h
        obtain ⟨l1, l2, heq, hmax⟩ := ih hps
        refine ⟨p :: l1, l2, by rw [heq]; rfl, ?_⟩
        intro x hx
        rcases List.mem_cons.mp hx with he | ht
        · rw [he]; exact lt_of_not_le hle
        · exact hmax x ht

/-- If not all values agree, the first minimum is strictly below the first
maximum. -/
theorem argminQ_lt_argmaxQ {l : List (Nat × ℚ)} {qm qM : Nat × ℚ}
    (hm : argminQ l = some qm) (hM : argmaxQ l = some qM)
    (hex : ∃ p1 ∈ l, ∃ p2 ∈ l, p1.2 ≠ p2.2) : qm.2 < qM.2 := by
  rcases hex with ⟨p1, hp1, p2, hp2, hne⟩
  by_contra hnot
  push_neg at hnot
  have e1 : p1.2 = qm.2 :=
    le_antisymm (le_trans (argmaxQ_ge hM p1 hp1) hnot) (argminQ_le hm p1 hp1)
  have e2 : p2.2 = qm.2 :=
    le_antisymm (le_trans (argmaxQ_ge hM p2 hp2) hnot) (argminQ_le hm p2 hp2)
  exact hne (e1.trans e2.symm)

theorem groupPairsFrom_mem {s : Int} : ∀ {k : Nat} {l : Frame} {q : Nat × ℚ},
    q ∈ groupPairsFrom s k l ↔
      ∃ r, (q.1, r) ∈ pairsFrom k l ∧ r.system = s ∧ r.ttvperiod = some q.2 := by
  intro k l
  induction l generalizing k with
  | nil => intro q; simp [groupPairsFrom, pairsFrom]
  | cons r rs ih =>
    intro q
    constructor
    · intro h
      simp only [groupPairsFrom] at h
      by_cases hsys : r.system = s
      · rw [if_pos hsys] at h
        cases hper : r.ttvperiod with
        | some v =>
          rw [hper] at h
          rcases List.mem_cons.mp h with he | ht
          · refine ⟨r, ?_, hsys, ?_⟩
            · rw [he]; simp [pairsFrom]
            · rw [he, hper]
          · obtain ⟨r2, hp, h1, h2⟩ := ih.mp ht
            exact ⟨r2, by simp [pairsFrom, hp], h1, h2⟩
        | none =>
          rw [hper] at h
          obtain ⟨r2, hp, h1, h2⟩ := ih.mp h
          exact ⟨r2, by simp [pairsFrom, hp], h1, h2⟩
      · rw [if_neg hsys] at h
        obtain ⟨r2, hp, h1, h2⟩ := ih.mp h
        exact ⟨r2, by simp [pairsFrom, hp], h1, h2⟩
    · rintro ⟨r2, hp, h1, h2⟩
      simp only [pairsFrom] at hp
      rcases List.mem_cons.mp hp with he | ht
      · have hq1 : q.1 = k := (Prod.ext_iff.mp he).1
        have hr2 : r2 = r := (Prod.ext_iff.mp he).2
        subst hr2
        simp only [groupPairsFrom, if_pos h1, h2]
        have hq : q = (k, q.2) := Prod.ext hq1 rfl
        rw [hq.symm] at *
        exact hq ▸ List.mem_cons_self _ _
      · have hmem : q ∈ groupPairsFrom s (k + 1) rs := ih.mpr ⟨r2, ht, h1, h2⟩
        simp only [groupPairsFrom]
        by_cases hsys : r.system = s
        · rw [if_pos hsys]
          cases hper : r.ttvperiod with
          | some v => exact List.mem_cons_of_mem _ hmem
          | none => exact hmem
        · rw [if_neg hsys]; exact hmem

theorem groupPairsFrom_lb {s : Int} : ∀ {k : Nat} {l : Frame} {q : Nat × ℚ},
    q ∈ groupPairsFrom s k l → k ≤ q.1 := by
  intro k l
  induction l generalizing k with
  | nil => intro q h; simp [groupPairsFrom] at h
  | cons r rs ih =>
    intro q h
    simp only [groupPairsFrom] at h
    by_cases hsys : r.system = s
    · rw [if_pos hsys] at h
      cases hper : r.ttvperiod with
      | some v =>
        rw [hper] at h
        rcases List.mem_cons.mp h with he | ht
        · rw [he]
        · exact le_trans (Nat.le_succ k) (ih ht)
      | none =>
        rw [hper] at h
        exact le_trans (Nat.le_succ k) (ih h)
    · rw [if_neg hsys] at h
      exact le_trans (Nat.le_succ k) (ih h)

theorem groupPairsFrom_pairwise (s : Int) : ∀ (k : Nat) (l : Frame),
    (groupPairsFrom s k l).Pairwise (fun a b => a.1 < b.1) := by
  intro k l
  induction l generalizing k with
  | nil => simp [groupPairsFrom]
  | cons r rs ih =>
    simp only [groupPairsFrom]
    by_cases hsys : r.system = s
    · rw [if_pos hsys]
      cases hper : r.ttvperiod with
      | some v =>
        refine List.Pairwise.cons ?_ (ih (k + 1))
        intro b hb
        have hlb := groupPairsFrom_lb hb
        show k < b.1
        omega
      | none => exact ih (k + 1)
    · rw [if_neg hsys]; exact ih (k + 1)

theorem pairwise_fst_inj : ∀ {l : List (Nat × ℚ)},
    l.Pairwise (fun a b => a.1 < b.1) →
    ∀ {a b : Nat × ℚ}, a ∈ l → b ∈ l → a.1 = b.1 → a = b := by
  intro l
  induction l with
  | nil => intro _ a b ha; cases ha
  | cons x xs ih =>
    intro hp a b ha hb he
    have hx := List.pairwise_cons.mp hp
    rcases List.mem_cons.mp ha with ha1 | ha2 <;> rcases List.mem_cons.mp hb with hb1 | hb2
    · rw [ha1, hb1]
    · exfalso
      have hlt := hx.1 b hb2
      rw [ha1] at he
      omega
    · exfalso
      have hlt := hx.1 a ha2
      rw [hb1] at he
      omega
    · exact ih hx.2 ha2 hb2 he

theorem groupPairsFrom_length {s : Int} : ∀ {l : Frame},
    (∀ r ∈ l, r.system = s → r.ttvperiod.isSome = true) →
    ∀ (k : Nat), (groupPairsFrom s k l).length = countSystem l s := by
  intro l
  induction l with
  | nil => intro _ _; rfl
  | cons r rs ih =>
    intro h k
    have htail := ih (fun r2 h2 => h r2 (List.mem_cons_of_mem r h2)) (k + 1)
    simp only [groupPairsFrom, countSystem_cons]
    by_cases hsys : r.system = s
    · rw [if_pos hsys]
      have hsome := h r (List.mem_cons_self r rs) hsys
      cases hper : r.ttvperiod with
      | none => rw [hper] at hsome; simp at hsome
      | some v =>
        simp only [List.length_cons, htail, if_pos hsys]
        omega
    · rw [if_neg hsys]
      simp only [htail, if_neg hsys]
      omega

/-- When labeling succeeds, the returned frame is the positionAt-labeling of
the input. -/
theorem label_position_eq {df out : Frame} (hlab : _label_position df = some out) :
    out = labelFrom df 0 df := by
  unfold _label_position at hlab
  by_cases hg : df.any (fun r => (groupPairs df r.system).isEmpty) = true
  · rw [if_pos hg] at hlab
    cases hlab
  · rw [if_neg hg] at hlab
    exact (Option.some.inj hlab).symm

/-- Rows of a successfully labeled frame keep the ttvperiod and snr of an
underlying input row: labeling writes only the position column. -/
theorem mem_label_position_fields {df out : Frame}
    (hlab : _label_position df = some out) {r : Row} (hr : r ∈ out) :
    ∃ r0 ∈ df, r.ttvperiod = r0.ttvperiod ∧ r.snr = r0.snr := by
  rw [label_position_eq hlab, labelFrom_eq_map] at hr
  obtain ⟨p, hp, rfl⟩ := List.mem_map.mp hr
  exact ⟨p.2, snd_mem_of_mem_pairsFrom hp, rfl, rfl⟩

/-- Rows whose system is unique in the frame are labeled single whenever
labeling succeeds, whatever the idxmin/idxmax writes did before (the single
write comes last). -/
theorem label_position_single_of_unique {df out : Frame}
    (hlab : _label_position df = some out) (r : Row)
    (hr : r ∈ out) (h1 : countSystem df r.system = 1) :
    r.position = some "single" := by
  rw [label_position_eq hlab, labelFrom_eq_map] at hr
  obtain ⟨p, hp, rfl⟩ := List.mem_map.mp hr
  dsimp only at h1
  have hdup : duplicatedKeepFalse df p.2 = false := by
    simp only [duplicatedKeepFalse, decide_eq_false_iff_not]
    omega
  show some (positionAt df p.1 p.2) = some "single"
  unfold positionAt
  rw [hdup]
  simp

/-- C4 counterexample: the claim fails at a concrete input.  In the two-row
frame [exT1, exT2] system 3 has 2 rows, all with the same ttvperiod, so
idxmin and idxmax both point at the first row; the outermost write overwrites
the innermost one, and no row of the system is labeled innermost — the first
row comes out outermost and the second middle.  The last conjunct records the
error path of the model: on the one-row frame [exNaN], whose only system has
no present period, labeling fails (the source raises) instead of producing a
single label. -/
theorem C4_counterexample :
    2 ≤ countSystem [exT1, exT2] 3 ∧
    _label_position [exT1, exT2] =
      some [{ exT1 with position := some "outermost" },
            { exT2 with position := some "middle" }] ∧
    (([{ exT1 with position := some "outermost" },
        { exT2 with position := some "middle" }] : Frame).filter
        (fun r => decide (r.system = 3 ∧ r.position = some "innermost"))).length = 0 ∧
    _label_position [exNaN] = none := by decide

/-- C4 amended: restricted to inputs on which labeling succeeds — the source
raises a KeyError when some system of the frame has only missing ttvperiod
values, which the model renders as _label_position returning none.  For every
system with at least 2 rows whose present ttvperiods are not all equal:
exactly one of its rows is labeled innermost and exactly one outermost;
every row of the system gets one of innermost, outermost, middle; labeling
preserves the per-system row counts; the innermost row is the first (lowest
index) row attaining the minimal present period of the system and the
outermost row is the first row attaining the maximal present period (ties
broken by first occurrence in row order, missing periods skipped); and
every row whose system is unique in the frame is labeled single, overriding
the innermost/outermost writes.  When all present periods of a multi-row
system tie, the code instead labels the first of those rows outermost and no
row innermost (see the counterexample). -/
theorem C4_label_position (df out : Frame) (s : Int)
    (hlab : _label_position df = some out)
    (hcnt : 2 ≤ countSystem df s)
    (hne : ∃ p1 ∈ groupPairs df s, ∃ p2 ∈ groupPairs df s, p1.2 ≠ p2.2) :
    (out.filter
        (fun r => decide (r.system = s ∧ r.position = some "innermost"))).length = 1 ∧
    (out.filter
        (fun r => decide (r.system = s ∧ r.position = some "outermost"))).length = 1 ∧
    (∀ r ∈ out, r.system = s →
        r.position = some "innermost" ∨ r.position = some "outermost" ∨
          r.position = some "middle") ∧
    countSystem out s = countSystem df s ∧
    (∃ i0 r0 v0, (i0, r0) ∈ pairsFrom 0 df ∧ r0.system = s ∧
        r0.ttvperiod = some v0 ∧
        { r0 with position := some "innermost" } ∈ out ∧
        (∀ p ∈ groupPairs df s, v0 ≤ p.2) ∧
        (∀ p ∈ groupPairs df s, p.1 < i0 → v0 < p.2)) ∧
    (∃ i1 r1 v1, (i1, r1) ∈ pairsFrom 0 df ∧ r1.system = s ∧
        r1.ttvperiod = some v1 ∧
        { r1 with position := some "outermost" } ∈ out ∧
        (∀ p ∈ groupPairs df s, p.2 ≤ v1) ∧
        (∀ p ∈ groupPairs df s, p.1 < i1 → p.2 < v1)) ∧
    (∀ r ∈ out, countSystem df r.system = 1 →
        r.position = some "single") := by
  have hout := label_position_eq hlab
  subst hout
  obtain ⟨p1, hp1g, p2, hp2g, hvne⟩ := hne
  have hexg : ∃ p1 ∈ groupPairs df s, ∃ p2 ∈ groupPairs df s, p1.2 ≠ p2.2 :=
    ⟨p1, hp1g, p2, hp2g, hvne⟩
  have hgne : groupPairs df s ≠ [] := by
    intro he
    rw [he] at hp1g
    exact absurd hp1g (List.not_mem_nil _)
  obtain ⟨qm, hqm⟩ : ∃ qm, argminQ (groupPairs df s) = some qm := by
    cases hm : argminQ (groupPairs df s) with
    | none => exact absurd (argminQ_eq_none_iff.mp hm) hgne
    | some q => exact ⟨q, rfl⟩
  obtain ⟨qM, hqM⟩ : ∃ qM, argmaxQ (groupPairs df s) = some qM := by
    cases hm : argmaxQ (groupPairs df s) with
    | none => exact absurd (argmaxQ_eq_none_iff.mp hm) hgne
    | some q => exact ⟨q, rfl⟩
  have hlt : qm.2 < qM.2 := argminQ_lt_argmaxQ hqm hqM hexg
  have hmMem : qm ∈ groupPairs df s := argminQ_mem hqm
  have hMMem : qM ∈ groupPairs df s := argmaxQ_mem hqM
  have hpw := groupPairsFrom_pairwise s 0 df
  have hidx : qm.1 ≠ qM.1 := by
    intro he
    have heq := pairwise_fst_inj hpw hmMem hMMem he
    rw [heq] at hlt
    exact lt_irrefl _ hlt
  obtain ⟨rm, hrmP, hrmS, hrmT⟩ := groupPairsFrom_mem.mp hmMem
  obtain ⟨rM, hrMP, hrMS, hrMT⟩ := groupPairsFrom_mem.mp hMMem
  have hposm : positionAt df qm.1 rm = "innermost" := by
    have hdup : duplicatedKeepFalse df rm = true := by
      simp only [duplicatedKeepFalse, hrmS, decide_eq_true_eq]
      exact hcnt
    have hMne : ¬ ((argmaxQ (groupPairs df rm.system)).map Prod.fst = some qm.1) := by
      rw [hrmS, hqM]
      simp only [Option.map_some', Option.some.injEq]
      exact fun he => hidx he.symm
    have hmEq : (argminQ (groupPairs df rm.system)).map Prod.fst = some qm.1 := by
      rw [hrmS, hqm]
      rfl
    unfold positionAt
    rw [hdup]
    simp only [Bool.not_true]
    rw [if_neg (by simp), if_neg hMne, if_pos hmEq]
  have hposM : positionAt df qM.1 rM = "outermost" := by
    have hdup : duplicatedKeepFalse df rM = true := by
      simp only [duplicatedKeepFalse, hrMS, decide_eq_true_eq]
      exact hcnt
    have hMEq : (argmaxQ (groupPairs df rM.system)).map Prod.fst = some qM.1 := by
      rw [hrMS, hqM]
      rfl
    unfold positionAt
    rw [hdup]
    simp only [Bool.not_true]
    rw [if_neg (by simp), if_pos hMEq]
  have hmap := labelFrom_eq_map df 0 df
  have hinMem : { rm with position := some "innermost" } ∈ labelFrom df 0 df := by
    rw [hmap]
    refine List.mem_map.mpr ⟨(qm.1, rm), hrmP, ?_⟩
    rw [hposm]
  have houtMem : { rM with position := some "outermost" } ∈ labelFrom df 0 df := by
    rw [hmap]
    refine List.mem_map.mpr ⟨(qM.1, rM), hrMP, ?_⟩
    rw [hposM]
  have hmLt : qm.1 < df.length := by
    obtain ⟨j, hj, hk, _⟩ := mem_pairsFrom.mp hrmP
    omega
  have hMLt : qM.1 < df.length := by
    obtain ⟨j, hj, hk, _⟩ := mem_pairsFrom.mp hrMP
    omega
  have hcountInner : ((labelFrom df 0 df).filter
      (fun r => decide (r.system = s ∧ r.position = some "innermost"))).length = 1 := by
    rw [hmap, List.filter_map, List.length_map]
    have hcongr : ∀ p ∈ pairsFrom 0 df,
        ((fun r => decide (r.system = s ∧ r.position = some "innermost")) ∘
          (fun p : Nat × Row =>
            { p.2 with position := some (positionAt df p.1 p.2) })) p
          = (fun p : Nat × Row => decide (p.1 = qm.1)) p := by
      rintro ⟨pi, pr⟩ hp
      simp only [Function.comp]
      rw [decide_eq_decide]
      constructor
      · rintro ⟨hsys, hpos⟩
        have hpos2 : positionAt df pi pr = "innermost" := Option.some.inj hpos
        unfold positionAt at hpos2
        by_cases hdup2 : duplicatedKeepFalse df pr
        · rw [hdup2] at hpos2
          simp only [Bool.not_true] at hpos2
          rw [if_neg (by simp)] at hpos2
          by_cases hc2 : (argmaxQ (groupPairs df pr.system)).map Prod.fst = some pi
          · rw [if_pos hc2] at hpos2
            exact absurd hpos2 (by decide)
          · rw [if_neg hc2] at hpos2
            by_cases hc3 : (argminQ (groupPairs df pr.system)).map Prod.fst = some pi
            · rw [hsys, hqm] at hc3
              simp only [Option.map_some', Option.some.injEq] at hc3
              exact hc3.symm
            · rw [if_neg hc3] at hpos2
              exact absurd hpos2 (by decide)
        · have hdf : duplicatedKeepFalse df pr = false := by
            revert hdup2
            cases duplicatedKeepFalse df pr <;> simp
          rw [hdf] at hpos2
          simp only [Bool.not_false, if_true] at hpos2
          exact absurd hpos2 (by decide)
      · intro hpe
        have hpr : pr = rm := pairsFrom_functional (hpe ▸ hp) hrmP
        subst hpr
        subst hpe
        exact ⟨hrmS, by rw [hposm]⟩
    rw [List.filter_congr hcongr, pairsFrom_filter_idx_length qm.1 0 df,
      if_pos (by omega)]
  have hcountOuter : ((labelFrom df 0 df).filter
      (fun r => decide (r.system = s ∧ r.position = some "outermost"))).length = 1 := by
    rw [hmap, List.filter_map, List.length_map]
    have hcongr : ∀ p ∈ pairsFrom 0 df,
        ((fun r => decide (r.system = s ∧ r.position = some "outermost")) ∘
          (fun p : Nat × Row =>
            { p.2 with position := some (positionAt df p.1 p.2) })) p
          = (fun p : Nat × Row => decide (p.1 = qM.1)) p := by
      rintro ⟨pi, pr⟩ hp
      simp only [Function.comp]
      rw [decide_eq_decide]
      constructor
      · rintro ⟨hsys, hpos⟩
        have hpos2 : positionAt df pi pr = "outermost" := Option.some.inj hpos
        unfold positionAt at hpos2
        by_cases hdup2 : duplicatedKeepFalse df pr
        · rw [hdup2] at hpos2
          simp only [Bool.not_true] at hpos2
          rw [if_neg (by simp)] at hpos2
          by_cases hc2 : (argmaxQ (groupPairs df pr.system)).map Prod.fst = some pi
          · rw [hsys, hqM] at hc2
            simp only [Option.map_some', Option.some.injEq] at hc2
            exact hc2.symm
          · rw [if_neg hc2] at hpos2
            by_cases hc3 : (argminQ (groupPairs df pr.system)).map Prod.fst = some pi
            · rw [if_pos hc3] at hpos2
              exact absurd hpos2 (by decide)
            · rw [if_neg hc3] at hpos2
              exact absurd hpos2 (by decide)
        · have hdf : duplicatedKeepFalse df pr = false := by
            revert hdup2
            cases duplicatedKeepFalse df pr <;> simp
          rw [hdf] at hpos2
          simp only [Bool.not_false, if_true] at hpos2
          exact absurd hpos2 (by decide)
      · intro hpe
        have hpr : pr = rM := pairsFrom_functional (hpe ▸ hp) hrMP
        subst hpr
        subst hpe
        exact ⟨hrMS, by rw [hposM]⟩
    rw [List.filter_congr hcongr, pairsFrom_filter_idx_length qM.1 0 df,
      if_pos (by omega)]
  have hfirstm : ∀ p ∈ groupPairs df s, p.1 < qm.1 → qm.2 < p.2 := by
    obtain ⟨l1, l2, heq, hmin⟩ := argminQ_first hqm
    intro p hp hplt
    rw [heq] at hp
    rcases List.mem_append.mp hp with hin1 | hin2
    · exact hmin p hin1
    · rcases List.mem_cons.mp hin2 with he | ht
      · rw [he] at hplt
        exact absurd hplt (lt_irrefl _)
      · have hpw2 := groupPairsFrom_pairwise s 0 df
        rw [show groupPairsFrom s 0 df = groupPairs df s from rfl, heq] at hpw2
        have hc := (List.pairwise_append.mp hpw2).2.1
        have hqmp := (List.pairwise_cons.mp hc).1 p ht
        omega
  have hfirstM : ∀ p ∈ groupPairs df s, p.1 < qM.1 → p.2 < qM.2 := by
    obtain ⟨l1, l2, heq, hmax⟩ := argmaxQ_first hqM
    intro p hp hplt
    rw [heq] at hp
    rcases List.mem_append.mp hp with hin1 | hin2
    · exact hmax p hin1
    · rcases List.mem_cons.mp hin2 with he | ht
      · rw [he] at hplt
        exact absurd hplt (lt_irrefl _)
      · have hpw2 := groupPairsFrom_pairwise s 0 df
        rw [show groupPairsFrom s 0 df = groupPairs df s from rfl, heq] at hpw2
        have hc := (List.pairwise_append.mp hpw2).2.1
        have hqmp := (List.pairwise_cons.mp hc).1 p ht
        omega
  refine ⟨hcountInner, hcountOuter, ?_, countSystem_labelFrom df s 0 df,
    ⟨qm.1, rm, qm.2, hrmP, hrmS, hrmT, hinMem,
      fun p hp => argminQ_le hqm p hp, hfirstm⟩,
    ⟨qM.1, rM, qM.2, hrMP, hrMS, hrMT, houtMem,
      fun p hp => argmaxQ_ge hqM p hp, hfirstM⟩,
    fun r hr h1 => label_position_single_of_unique hlab r hr h1⟩
  intro r hr hrs
  rw [hmap] at hr
  obtain ⟨p, hp, rfl⟩ := List.mem_map.mp hr
  dsimp only at hrs
  have hdup : duplicatedKeepFalse df p.2 = true := by
    simp only [duplicatedKeepFalse, hrs, decide_eq_true_eq]
    exact hcnt
  show (some (positionAt df p.1 p.2) = some "innermost") ∨
    (some (positionAt df p.1 p.2) = some "outermost") ∨
    (some (positionAt df p.1 p.2) = some "middle")
  unfold positionAt
  rw [hdup]
  simp only [Bool.not_true]
  rw [if_neg (by simp)]
  by_cases hc2 : (argmaxQ (groupPairs df p.2.system)).map Prod.fst = some p.1
  · rw [if_pos hc2]
    exact Or.inr (Or.inl rfl)
  · rw [if_neg hc2]
    by_cases hc3 : (argminQ (groupPairs df p.2.system)).map Prod.fst = some p.1
    · rw [if_pos hc3]
      exact Or.inl rfl
    · rw [if_neg hc3]
      exact Or.inr (Or.inr rfl)

/-- Witness for C4 amended at a concrete input: labeling the three-row
system 2 of [exB1, exB2, exB3] (periods 5, 15, 25) succeeds and exactly one
row of the labeled frame is innermost. -/
theorem C4_label_position_witness :
    (exB123Labeled.filter
        (fun r => decide (r.system = 2 ∧ r.position = some "innermost"))).length = 1 :=
  (C4_label_position [exB1, exB2, exB3] exB123Labeled 2
    (by decide) (by decide) (by decide)).1

/-- Witness for C6 at a concrete input: raising the period threshold from 0
to 8 does not grow the filtered [exB1, exB2]. -/
theorem C6_filter_data_monotone_witness :
    (filter_data [exB1, exB2] none (some 8) (some 0)).length ≤
      (filter_data [exB1, exB2] none (some 0) (some 0)).length :=
  (C6_filter_data_monotone [exB1, exB2] none 0 8 0 0 (by decide) (by decide)).2.2

/-- Rows of the singles output of demotion are either input singles rows or
demoted copies of input multis rows: only the position column is rewritten. -/
theorem mem_demote_singles {singles multis : Frame} {r : Row}
    (hr : r ∈ (demote_multis_to_singles singles multis).1) :
    r ∈ singles ∨ ∃ r0 ∈ multis, r = { r0 with position := some "demoted" } := by
  rw [demote_multis_to_singles_eq] at hr
  have hr2 := (sortBySystem_perm _).mem_iff.mp hr
  rcases List.mem_append.mp hr2 with h | h
  · exact Or.inl h
  · obtain ⟨r0, hr0, rfl⟩ := List.mem_map.mp h
    exact Or.inr ⟨r0, (List.mem_filter.mp hr0).1, rfl⟩

/-- Rows of the multis output of demotion are input multis rows. -/
theorem mem_demote_multis {singles multis : Frame} {r : Row}
    (hr : r ∈ (demote_multis_to_singles singles multis).2) : r ∈ multis := by
  rw [demote_multis_to_singles_eq] at hr
  exact (List.mem_filter.mp hr).1

/-- Both halves produced by filter-then-split carry only rows with present
ttvperiod and snr: the partition runs on the already filtered frame. -/
theorem isSome_of_mem_fts {df : Frame} {sf : Option STATUS_FLAG}
    {mt ms : Option ℚ} {r : Row}
    (h : r ∈ (_filter_then_split df (fun d => filter_data d sf mt ms)).1 ∨
         r ∈ (_filter_then_split df (fun d => filter_data d sf mt ms)).2) :
    r.ttvperiod.isSome = true ∧ r.snr.isSome = true := by
  have hmem : r ∈ with_multiplicity (filter_data df sf mt ms) := by
    rw [_filter_then_split_eq] at h
    rcases h with h | h
    · exact mem_of_mem_gms_singles h
    · exact mem_of_mem_gms_multis h
  unfold with_multiplicity at hmem
  obtain ⟨r0, hr0, rfl⟩ := List.mem_map.mp hmem
  have h2 := isSome_of_mem_filter_data hr0
  exact h2

/-- Both halves produced by split-then-filter carry only rows with present
ttvperiod and snr: each half passes through the filter after partitioning. -/
theorem isSome_of_mem_stf {df : Frame} {sf : Option STATUS_FLAG}
    {mt ms : Option ℚ} {r : Row}
    (h : r ∈ (_split_then_filter df (fun d => filter_data d sf mt ms)).1 ∨
         r ∈ (_split_then_filter df (fun d => filter_data d sf mt ms)).2) :
    r.ttvperiod.isSome = true ∧ r.snr.isSome = true := by
  rw [_split_then_filter_eq] at h
  rcases h with h | h <;> exact isSome_of_mem_filter_data h

/-- Decomposition of a successful process_data run: both halves were labeled
successfully and the final pair is the (optionally demoted) labeled pair. -/
theorem process_data_result {df : Frame} {cfg : Config} {sf : STATUS_FLAG}
    {kd : KeplerData} (h : (process_data df cfg sf).2 = some kd) :
    ∃ singles multis,
      _label_position ((if cfg.pre_split_filtering then
          _filter_then_split_state df
            (fun d => filter_data d (some sf) cfg.min_ttvperiod cfg.min_snr)
        else _split_then_filter_state df
            (fun d => filter_data d (some sf) cfg.min_ttvperiod cfg.min_snr)).2.1)
        = some singles ∧
      _label_position ((if cfg.pre_split_filtering then
          _filter_then_split_state df
            (fun d => filter_data d (some sf) cfg.min_ttvperiod cfg.min_snr)
        else _split_then_filter_state df
            (fun d => filter_data d (some sf) cfg.min_ttvperiod cfg.min_snr)).2.2)
        = some multis ∧
      kd.singles = (if cfg.demote_multis_to_singles
          then demote_multis_to_singles singles multis else (singles, multis)).1 ∧
      kd.multis = (if cfg.demote_multis_to_singles
          then demote_multis_to_singles singles multis else (singles, multis)).2 := by
  unfold process_data at h
  dsimp only at h
  cases hS : _label_position ((if cfg.pre_split_filtering then
      _filter_then_split_state df
        (fun d => filter_data d (some sf) cfg.min_ttvperiod cfg.min_snr)
    else _split_then_filter_state df
        (fun d => filter_data d (some sf) cfg.min_ttvperiod cfg.min_snr)).2.1) with
  | none =>
    rw [hS] at h
    dsimp only at h
    cases h
  | some singles =>
    rw [hS] at h
    cases hM : _label_position ((if cfg.pre_split_filtering then
        _filter_then_split_state df
          (fun d => filter_data d (some sf) cfg.min_ttvperiod cfg.min_snr)
      else _split_then_filter_state df
          (fun d => filter_data d (some sf) cfg.min_ttvperiod cfg.min_snr)).2.2) with
    | none =>
      rw [hM] at h
      dsimp only at h
      cases h
    | some multis =>
      rw [hM] at h
      dsimp only at h
      have hX := Option.some.inj h
      subst hX
      exact ⟨singles, multis, rfl, rfl, rfl, rfl⟩

/-- C10 counterexample: the claim fails at a concrete input.  On the frame
[exM5, exNaN] (two rows of system 5, the second with a missing period), the
split-then-filter ordering partitions the unfiltered frame: the NaN-period
row exNaN appears in the partitioned multis, and its presence changes the
classification of the surviving row exM5, which split-then-filter keeps as a
multi while filter-then-split makes it a single — so rows with a missing
period do reach partitioning. -/
theorem C10_counterexample :
    exNaN.ttvperiod = none ∧
    { exNaN with multiplicity := some 2 } ∈
      (get_multis_and_singles (with_multiplicity [exM5, exNaN])).2 ∧
    (_split_then_filter [exM5, exNaN]
        (fun d => filter_data d none (some 0) (some 0))).2
      = [{ exM5 with multiplicity := some 2 }] ∧
    (_filter_then_split [exM5, exNaN]
        (fun d => filter_data d none (some 0) (some 0))).2 = ([] : Frame) := by
  decide

/-- C10 amended: filter_data does remove every row with a missing ttvperiod
or snr for every threshold choice, and under filter-then-split such rows
therefore never reach partitioning, labeling, or demotion.  Under
split-then-filter, however, the partition runs on the unfiltered frame, so
missing-valued rows do reach partitioning (see the counterexample); they are
dropped by the per-half filtering immediately afterwards, so in either
ordering the two halves handed to labeling, and the singles and multis of
every successful process_data run (hence everything demotion touches),
contain only rows with present ttvperiod and snr. -/
theorem C10_nan_rows_scope :
    (∀ df sf mt ms r, r ∈ filter_data df sf mt ms →
        r.ttvperiod.isSome = true ∧ r.snr.isSome = true) ∧
    (∀ df sf mt ms r,
        (r ∈ (_filter_then_split df (fun d => filter_data d sf mt ms)).1 ∨
         r ∈ (_filter_then_split df (fun d => filter_data d sf mt ms)).2) →
        r.ttvperiod.isSome = true ∧ r.snr.isSome = true) ∧
    (∀ df sf mt ms r,
        (r ∈ (_split_then_filter df (fun d => filter_data d sf mt ms)).1 ∨
         r ∈ (_split_then_filter df (fun d => filter_data d sf mt ms)).2) →
        r.ttvperiod.isSome = true ∧ r.snr.isSome = true) ∧
    (∀ df cfg sf kd r, (process_data df cfg sf).2 = some kd →
        (r ∈ kd.singles ∨ r ∈ kd.multis) →
        r.ttvperiod.isSome = true ∧ r.snr.isSome = true) := by
  refine ⟨fun df sf mt ms r h => isSome_of_mem_filter_data h,
    fun df sf mt ms r h => isSome_of_mem_fts h,
    fun df sf mt ms r h => isSome_of_mem_stf h, ?_⟩
  intro df cfg sf kd r hkd hr
  obtain ⟨singles, multis, hS, hM, hks, hkm⟩ := process_data_result hkd
  have hhalfS : ∀ r2 ∈ singles,
      r2.ttvperiod.isSome = true ∧ r2.snr.isSome = true := by
    intro r2 hr2
    obtain ⟨r0, hr0, ht, hs⟩ := mem_label_position_fields hS hr2
    rw [ht, hs]
    by_cases hb : cfg.pre_split_filtering
    · rw [if_pos hb] at hr0
      exact isSome_of_mem_fts (Or.inl hr0)
    · rw [if_neg hb] at hr0
      exact isSome_of_mem_stf (Or.inl hr0)
  have hhalfM : ∀ r2 ∈ multis,
      r2.ttvperiod.isSome = true ∧ r2.snr.isSome = true := by
    intro r2 hr2
    obtain ⟨r0, hr0, ht, hs⟩ := mem_label_position_fields hM hr2
    rw [ht, hs]
    by_cases hb : cfg.pre_split_filtering
    · rw [if_pos hb] at hr0
      exact isSome_of_mem_fts (Or.inr hr0)
    · rw [if_neg hb] at hr0
      exact isSome_of_mem_stf (Or.inr hr0)
  by_cases hd : cfg.demote_multis_to_singles
  · rw [if_pos hd] at hks hkm
    rcases hr with hr | hr
    · rw [hks] at hr
      rcases mem_demote_singles hr with h | ⟨r0, hr0, rfl⟩
      · exact hhalfS r h
      · exact hhalfM r0 hr0
    · rw [hkm] at hr
      exact hhalfM r (mem_demote_multis hr)
  · rw [if_neg hd] at hks hkm
    rcases hr with hr | hr
    · rw [hks] at hr
      exact hhalfS r hr
    · rw [hkm] at hr
      exact hhalfM r hr

/-- Witness for C10 amended at a concrete input: with permissive numeric
thresholds the NaN-period row exNaN is dropped by filter_data and exA
survives with both values present. -/
theorem C10_nan_rows_scope_witness :
    exA.ttvperiod.isSome = true ∧ exA.snr.isSome = true :=
  C10_nan_rows_scope.1 [exNaN, exA] none (some 0) (some 0) exA (by decide)
